import Mathlib

/-!
Shallow embedding of `bybit_bulk_downloader/downloader.py`.

Pure fragments of the source (path computation, chunking, window generation,
the crawl of the directory listing, the sort/deduplicate row pipelines) become
Lean functions; the stateful archive fetch `_download` becomes an explicit
transition on a modelled filesystem.  External capabilities (HTTP bodies,
directory-listing anchors, gzip decompression, the REST row sources) are
parameters of the corresponding definitions.
-/

/-- Byte strings are modelled as lists of naturals. -/
abbrev Bytes := List Nat

/-- Tuple `BybitBulkDownloader._DATA_TYPE` of supported data types. -/
def _DATA_TYPE : List String :=
  ["kline_for_metatrader4", "premium_index", "spot_index", "trading", "fundingRate", "klines"]

/-- Constructor state stored by `BybitBulkDownloader.__init__`. -/
structure Config where
  destination_dir : String
  data_type : String
  klines_category : String
  deriving DecidableEq

/-- Model of `BybitBulkDownloader.__init__` (lines 37-48): the three arguments
are stored unchanged and an HTTP session is opened.  The source performs no
validation of `data_type` (or of `klines_category`), so construction always
succeeds; the `Except` result records whether a `ValueError` is raised. -/
def BybitBulkDownloader_init (destination_dir data_type klines_category : String) :
    Except String Config :=
  Except.ok ⟨destination_dir, data_type, klines_category⟩

/-- Model of `filepath.replace(".gz", "")` as used in `_download`, specialised
to the fixed pattern: a single left-to-right pass removing each
non-overlapping occurrence of the three characters `.gz`. -/
def removeGzList : List Char → List Char
  | '.' :: 'g' :: 'z' :: rest => removeGzList rest
  | c :: cs => c :: removeGzList cs
  | [] => []

/-- String version of `removeGzList`. -/
def pyReplaceGz (s : String) : String := String.mk (removeGzList s.data)

/-- Model of Python `url.split("/")` on the character list of the string:
every `'/'` separates two (possibly empty) groups. -/
def splitOnSlash : List Char → List (List Char)
  | [] => [[]]
  | c :: cs =>
    if c = '/' then [] :: splitOnSlash cs
    else
      match splitOnSlash cs with
      | [] => [[c]]
      | g :: gs => (c :: g) :: gs

/-- String version of `splitOnSlash`. -/
def pySplitSlash (s : String) : List String := (splitOnSlash s.data).map String.mk

/-- Model of Python `"/".join(parts)`. -/
def joinSlash : List String → String
  | [] => ""
  | [s] => s
  | s :: rest => s ++ "/" ++ joinSlash rest

/-- Model of Python `parts.insert(i, x)`: list insertion, with the index
clamped to the length of the list. -/
def pyInsert (l : List α) (i : Nat) (x : α) : List α :=
  l.take i ++ x :: l.drop i

set_option linter.unusedVariables false in
/-- Path computation of `BybitBulkDownloader._download` (lines 100-122):
`parts = url.split("/")`, `parts.insert(3, "bybit_data")`,
`filepath = str(destination_dir) + "/" + "/".join(parts[3:])` (a one-argument
`os.path.join` returns its argument unchanged), and the decompressed output
path `filepath.replace(".gz", "")`.  The `data_type` attribute only feeds an
unused local variable in the source and affects neither path. -/
def download_filepaths (destination_dir data_type url : String) : String × String :=
  let parts := pyInsert (pySplitSlash url) 3 "bybit_data"
  let filepath := destination_dir ++ "/" ++ joinSlash (parts.drop 3)
  (filepath, pyReplaceGz filepath)

/-- Filesystem state relevant to `_download`: a finite map from paths to file
contents, as an association list whose most recent write comes first. -/
abbrev FS := List (String × Bytes)

/-- Content of the file at path `p`, if present. -/
def fsGet (fs : FS) (p : String) : Option Bytes :=
  (fs.find? fun e => e.1 == p).map Prod.snd

/-- Model of `os.remove(p)` (also used to overwrite): drops every entry at `p`. -/
def fsErase (fs : FS) (p : String) : FS := fs.filter fun e => !(e.1 == p)

/-- Model of `open(p, "wb")` followed by writing `v`. -/
def fsSet (fs : FS) (p : String) (v : Bytes) : FS := (p, v) :: fsErase fs p

/-- Model of `BybitBulkDownloader._download` (lines 88-127) as a transition on
the modelled filesystem.  `net` is the capability behind `requests.get`
(bytes of the response body) and `gunzip` the gzip decompression capability,
`none` meaning the payload is corrupt.  The result carries the new
filesystem, the number of network requests performed by the call, and whether
decompression failed.  Following the source order: the body is written to
`filepath`; the decompressed output file is created (empty) and decompression
streams into it; on success the compressed file is then removed, while on a
decompression error nothing further runs, because the source installs no
error handler, so the compressed file stays and the created-but-unfilled
output file stays too.  There is no check whether any output already
exists. -/
def _download (gunzip : Bytes → Option Bytes) (net : String → Bytes)
    (destination_dir data_type : String) (fs : FS) (url : String) :
    FS × Nat × Bool :=
  let paths := download_filepaths destination_dir data_type url
  let body := net url
  let fs1 := fsSet fs paths.1 body
  match gunzip body with
  | some decompressed => (fsErase (fsSet fs1 paths.2 decompressed) paths.1, 1, false)
  | none => (fsSet fs1 paths.2 [], 1, true)

/-- Iterations of the slicing loop of `make_chunks`.  The first recursion
argument counts the remaining iterations of `range(0, len(lst), n)`, and
`len(lst)` iterations always suffice because each step consumes `n ≥ 1`
elements. -/
def make_chunksAux (n : Nat) : Nat → List α → List (List α)
  | _, [] => []
  | 0, _ => []
  | fuel + 1, l => l.take n :: make_chunksAux n fuel (l.drop n)

/-- Model of `BybitBulkDownloader.make_chunks` (lines 78-86):
`[lst[i : i + n] for i in range(0, len(lst), n)]`.  For `n = 0` Python's
`range` raises `ValueError`; the embedding returns `[]` there, and every
claim about `make_chunks` assumes `n > 0`. -/
def make_chunks (lst : List α) (n : Nat) : List (List α) :=
  if n = 0 then [] else make_chunksAux n lst.length lst

/-- Loop iterations of `generate_dates_until_today`.  Dates are modelled as
day numbers; `datetime + timedelta(days = k)` becomes `+ k`.  Each iteration
advances the start day by at least one, so `today + 1 - startDay` iterations
always suffice. -/
def generate_dates_aux (today : Nat) : Nat → Nat → List (Nat × Nat)
  | 0, _ => []
  | fuel + 1, startDay =>
    if startDay ≤ today then
      (startDay, min (startDay + 60) today) ::
        generate_dates_aux today fuel (min (startDay + 60) today + 1)
    else []

/-- Model of `BybitBulkDownloader.generate_dates_until_today` (lines 136-156)
at day granularity: while `start_date <= end_date`, emit the pair
`(start_date, min (start_date + 60) end_date)` and restart from the emitted
end plus one day.  The `strftime` formatting of each pair into a string is
dropped; a pair stands for exactly the two formatted dates. -/
def generate_dates_until_today (startDay today : Nat) : List (Nat × Nat) :=
  generate_dates_aux today (today + 1 - startDay) startDay

/-- Model of `BybitBulkDownloader._get_url_from_bybit` (lines 50-76).  The
listing capabilities stand for the HTML anchor extraction: `rootLinks` are the
hrefs on the data-type root page, `yearLinks e` the hrefs on page `url + e`,
and `fileLinks e` the hrefs on the listing page `url + e` of a first-level
entry.  For `kline_for_metatrader4` the source mutates `link_sym` inside the
inner loop (`link_sym += link_year.get("href")`), so the accumulated name
grows across the years of one symbol; the fold pair `(link_sym, acc)` models
exactly that. -/
def get_url_from_bybit (data_type base : String) (rootLinks : List String)
    (yearLinks fileLinks : String → List String) : List String :=
  let url := base ++ "/" ++ data_type ++ "/"
  let symbol_list :=
    if data_type = "kline_for_metatrader4" then
      rootLinks.foldl (fun acc link =>
        acc ++ ((yearLinks link).foldl
          (fun (st : String × List String) ly => (st.1 ++ ly, st.2 ++ [st.1 ++ ly]))
          (link, [])).2) []
    else rootLinks
  symbol_list.foldl (fun acc sym => acc ++ (fileLinks sym).map (fun f => url ++ sym ++ f)) []

/-- Row order used by the pandas sorts in the source: ascending in the parsed
numeric timestamp held in the first component. -/
def rowLE {V : Type} (a b : Nat × V) : Prop := a.1 ≤ b.1

instance {V : Type} : DecidableRel (@rowLE V) := fun a b => Nat.decLe a.1 b.1

instance {V : Type} : IsTotal (Nat × V) (@rowLE V) := ⟨fun a b => Nat.le_total a.1 b.1⟩

instance {V : Type} : IsTrans (Nat × V) (@rowLE V) := ⟨fun _ _ _ h1 h2 => Nat.le_trans h1 h2⟩

/-- Model of `df.sort_values(key_column)` on rows keyed by their parsed
timestamp, as a stable ascending sort (insertion sort; rows with equal keys
keep their relative order).  pandas does not document stability for its
default sort kind, but no claim depends on the order it gives two equal-key
rows beyond what `drop_duplicates` then keeps, and the stable model matches
the row-major accumulation order of the source. -/
def sort_values {V : Type} (l : List (Nat × V)) : List (Nat × V) :=
  List.insertionSort (@rowLE V) l

/-- Scan of `df.drop_duplicates` on the key column: a row is kept exactly when
its key has not occurred earlier (pandas default keeps the first
occurrence). -/
def drop_duplicatesAux {V : Type} (seen : List Nat) : List (Nat × V) → List (Nat × V)
  | [] => []
  | r :: rs =>
    if r.1 ∈ seen then drop_duplicatesAux seen rs
    else r :: drop_duplicatesAux (r.1 :: seen) rs

/-- Model of `df.drop_duplicates` on the key column. -/
def drop_duplicates {V : Type} (l : List (Nat × V)) : List (Nat × V) :=
  drop_duplicatesAux [] l

/-- Merge step of `_download_klines` (lines 345-371): the rows of all
intermediate per-window files are concatenated in directory-listing order,
sorted ascending on `startTime`, and deduplicated on `startTime`. -/
def merge_klines {V : Type} (files : List (List (Nat × V))) : List (Nat × V) :=
  drop_duplicates (sort_values files.flatten)

/-- One funding-rate row as returned by `get_funding_rate_history`. -/
structure FundingRow where
  fundingRate : String
  fundingRateTimestamp : String
  symbol : String
  deriving DecidableEq

/-- Numeric parse of a timestamp string: the API returns integer
milliseconds-since-epoch as decimal digit strings, and `astype(float)` of such
a string yields its numeric value, raising on anything non-numeric (hence
`Option`). -/
def parseDigits (l : List Char) : Option Nat :=
  if l ≠ [] ∧ l.all (fun c => c.isDigit) then
    some (l.foldl (fun n c => n * 10 + (c.toNat - 48)) 0)
  else none

/-- Parsing of one accumulated row in `_download_fundingrate`:
`pd.to_datetime(df[ts].astype(float) * 1000000)` turns the string millisecond
timestamp into a numeric instant (nanoseconds); a non-numeric string makes the
conversion raise, hence `Option`.  The float conversion of the rate column
affects neither ordering nor deduplication, so the value is kept verbatim. -/
def parse_funding_row (r : FundingRow) : Option (Nat × String × String) :=
  (parseDigits r.fundingRateTimestamp.data).map fun t => (t * 1000000, r.fundingRate, r.symbol)

/-- Row pipeline of `_download_fundingrate` for one symbol (lines 174-197):
the rows of every time window are appended in window order, the timestamp
column is parsed, and the frame is sorted ascending on
`fundingRateTimestamp`.  No deduplication is performed before the CSV is
written. -/
def download_fundingrate_rows (windows : List (List FundingRow)) :
    Option (List (Nat × String × String)) :=
  (windows.flatten.mapM parse_funding_row).map fun rows => sort_values rows

/-- Alternative reading used by claim C10 for contrast: strip only a trailing
`.gz` extension instead of replacing every occurrence. -/
def stripTrailingGz (s : String) : String :=
  if List.isSuffixOf ['.', 'g', 'z'] s.data then String.mk (s.data.dropLast.dropLast.dropLast)
  else s

/-- Concatenation of a list of strings, used to state what the accumulated
`link_sym` of `_get_url_from_bybit` contains after k inner-loop steps. -/
def concatStrings : List String → String
  | [] => ""
  | s :: rest => s ++ concatStrings rest

/-! Helper lemmas about the embedded definitions. -/

theorem removeGzList_length_le (l : List Char) : (removeGzList l).length ≤ l.length := by
  induction l using removeGzList.induct with
  | case1 rest ih => simp [removeGzList]; omega
  | case2 c cs h ih => simp [removeGzList]; omega
  | case3 => simp [removeGzList]

theorem removeGzList_length_lt (l : List Char) :
    ['.', 'g', 'z'] <:+ l → (removeGzList l).length < l.length := by
  induction l using removeGzList.induct with
  | case1 rest ih =>
    intro _
    have := removeGzList_length_le rest
    simp [removeGzList]
    omega
  | case2 c cs hne ih =>
    intro hs
    rcases List.suffix_cons_iff.mp hs with he | hs'
    · have h1 : c = '.' ∧ cs = 'g' :: 'z' :: [] := by simpa using he.symm
      exact (hne [] h1.1 h1.2).elim
    · have := ih hs'
      simp [removeGzList]
      omega
  | case3 =>
    intro hs
    simp at hs

theorem pyReplaceGz_ne_of_suffix (s : String) (h : ['.', 'g', 'z'] <:+ s.data) :
    pyReplaceGz s ≠ s := by
  intro he
  have h2 : (pyReplaceGz s).data = s.data := congrArg String.data he
  have h3 : (pyReplaceGz s).data = removeGzList s.data := rfl
  have h4 := removeGzList_length_lt s.data h
  rw [h3] at h2
  have := congrArg List.length h2
  omega

theorem fsGet_fsErase_self (fs : FS) (p : String) : fsGet (fsErase fs p) p = none := by
  induction fs with
  | nil => rfl
  | cons e rest ih =>
    by_cases h : e.1 == p
    · simpa [fsErase, List.filter_cons, h] using ih
    · simp [fsErase, fsGet, List.filter_cons, h, List.find?_cons, ih]

theorem fsGet_fsErase_ne (fs : FS) (p q : String) (h : q ≠ p) :
    fsGet (fsErase fs p) q = fsGet fs q := by
  induction fs with
  | nil => rfl
  | cons e rest ih =>
    by_cases he : e.1 == p
    · have hq : (e.1 == q) = false := by
        have : e.1 = p := by simpa using he
        simp [this]
        exact fun hh => h hh.symm
      simp [fsErase, List.filter_cons, he, fsGet, List.find?_cons, hq] at *
      exact ih
    · by_cases hq : e.1 == q
      · simp [fsErase, List.filter_cons, he, fsGet, List.find?_cons, hq]
      · simp [fsErase, List.filter_cons, he, fsGet, List.find?_cons, hq] at *
        exact ih

theorem fsGet_fsSet_self (fs : FS) (p : String) (v : Bytes) :
    fsGet (fsSet fs p v) p = some v := by
  simp [fsSet, fsGet, List.find?_cons]

theorem fsGet_fsSet_ne (fs : FS) (p q : String) (v : Bytes) (h : q ≠ p) :
    fsGet (fsSet fs p v) q = fsGet fs q := by
  have hq : (p == q) = false := by
    simp
    exact fun hh => h hh.symm
  simp [fsSet, fsGet, List.find?_cons, hq]
  have := fsGet_fsErase_ne fs p q h
  simpa [fsGet] using this

theorem make_chunksAux_nil (n : Nat) (fuel : Nat) : make_chunksAux n fuel ([] : List α) = [] := by
  cases fuel <;> rfl

theorem make_chunksAux_flatten (n : Nat) (hn : 0 < n) :
    ∀ (fuel : Nat) (l : List α), l.length ≤ fuel → (make_chunksAux n fuel l).flatten = l := by
  intro fuel
  induction fuel with
  | zero =>
    intro l hl
    have h0 : l = [] := List.eq_nil_of_length_eq_zero (Nat.le_zero.mp hl)
    subst h0
    rfl
  | succ fuel ih =>
    intro l hl
    cases l with
    | nil => rfl
    | cons x xs =>
      have hred : make_chunksAux n (fuel + 1) (x :: xs)
          = (x :: xs).take n :: make_chunksAux n fuel ((x :: xs).drop n) := rfl
      rw [hred, List.flatten_cons, ih]
      · exact List.take_append_drop n (x :: xs)
      · simp only [List.length_drop, List.length_cons]
        simp only [List.length_cons] at hl
        omega

theorem make_chunksAux_dropLast (n : Nat) (hn : 0 < n) :
    ∀ (fuel : Nat) (l : List α), l.length ≤ fuel →
      ∀ c ∈ (make_chunksAux n fuel l).dropLast, c.length = n := by
  intro fuel
  induction fuel with
  | zero =>
    intro l hl c hc
    have h0 : l = [] := List.eq_nil_of_length_eq_zero (Nat.le_zero.mp hl)
    subst h0
    rw [make_chunksAux_nil] at hc
    simp at hc
  | succ fuel ih =>
    intro l hl
    cases l with
    | nil =>
      intro c hc
      rw [make_chunksAux_nil] at hc
      simp at hc
    | cons x xs =>
      have hred : make_chunksAux n (fuel + 1) (x :: xs)
          = (x :: xs).take n :: make_chunksAux n fuel ((x :: xs).drop n) := rfl
      rw [hred]
      cases hrest : make_chunksAux n fuel ((x :: xs).drop n) with
      | nil => simp
      | cons r rs =>
        have hd : (x :: xs).drop n ≠ [] := by
          intro h0
          rw [h0, make_chunksAux_nil] at hrest
          cases hrest
        have hlen : n < (x :: xs).length := by
          by_contra hcon
          exact hd (List.drop_eq_nil_of_le (by omega))
        intro c hc
        rw [List.dropLast_cons_of_ne_nil (List.cons_ne_nil r rs)] at hc
        rcases List.mem_cons.mp hc with hceq | hcmem
        · subst hceq
          simp only [List.length_take]
          omega
        · exact ih ((x :: xs).drop n)
            (by simp only [List.length_drop, List.length_cons]
                simp only [List.length_cons] at hl
                omega)
            c (by rw [hrest]; exact hcmem)

theorem make_chunksAux_getLast (n : Nat) (hn : 0 < n) :
    ∀ (fuel : Nat) (l : List α), l.length ≤ fuel → l ≠ [] →
      ∃ c, (make_chunksAux n fuel l).getLast? = some c
        ∧ c.length = (if l.length % n = 0 then n else l.length % n) := by
  intro fuel
  induction fuel with
  | zero =>
    intro l hl hne
    exact absurd (List.eq_nil_of_length_eq_zero (Nat.le_zero.mp hl)) hne
  | succ fuel ih =>
    intro l hl hne
    cases l with
    | nil => exact absurd rfl hne
    | cons x xs =>
      have hred : make_chunksAux n (fuel + 1) (x :: xs)
          = (x :: xs).take n :: make_chunksAux n fuel ((x :: xs).drop n) := rfl
      by_cases hd : (x :: xs).drop n = []
      · refine ⟨(x :: xs).take n, ?_, ?_⟩
        · rw [hred, hd, make_chunksAux_nil]
          rfl
        · have hle : (x :: xs).length ≤ n := List.drop_eq_nil_iff.mp hd
          have hpos : 0 < (x :: xs).length := by simp
          rcases Nat.lt_or_ge (x :: xs).length n with hlt | hge
          · rw [Nat.mod_eq_of_lt hlt, if_neg (by omega)]
            simp only [List.length_take]
            omega
          · have heq : (x :: xs).length = n := Nat.le_antisymm hle hge
            rw [heq, Nat.mod_self, if_pos rfl]
            simp only [List.length_take]
            omega
      · have hlen : n < (x :: xs).length := by
          by_contra hcon
          exact hd (List.drop_eq_nil_of_le (by omega))
        obtain ⟨c, hc1, hc2⟩ := ih ((x :: xs).drop n)
          (by simp only [List.length_drop, List.length_cons]
              simp only [List.length_cons] at hl
              omega) hd
        refine ⟨c, ?_, ?_⟩
        · rw [hred]
          cases hrest : make_chunksAux n fuel ((x :: xs).drop n) with
          | nil =>
            rw [hrest] at hc1
            simp at hc1
          | cons r rs =>
            rw [hrest] at hc1
            rw [List.getLast?_cons_cons]
            exact hc1
        · rw [hc2]
          have hmod : ((x :: xs).drop n).length % n = (x :: xs).length % n := by
            simp only [List.length_drop]
            have hsplit : (x :: xs).length = ((x :: xs).length - n) + n := by omega
            rw [hsplit]
            simp [Nat.add_mod_right]
          rw [hmod]

theorem generate_dates_aux_props (today : Nat) :
    ∀ (fuel s : Nat), today + 1 - s ≤ fuel →
      (∀ w ∈ generate_dates_aux today fuel s, s ≤ w.1 ∧ w.1 ≤ w.2 ∧ w.2 - w.1 ≤ 60 ∧ w.2 ≤ today)
    ∧ (generate_dates_aux today fuel s).Pairwise (fun a b => a.2 < b.1)
    ∧ (∀ d, s ≤ d → d ≤ today → ∃ w ∈ generate_dates_aux today fuel s, w.1 ≤ d ∧ d ≤ w.2) := by
  intro fuel
  induction fuel with
  | zero =>
    intro s hs
    refine ⟨?_, ?_, ?_⟩
    · intro w hw
      simp [generate_dates_aux] at hw
    · simp [generate_dates_aux]
    · intro d hd1 hd2
      exfalso
      omega
  | succ fuel ih =>
    intro s hs
    by_cases hst : s ≤ today
    · have hred : generate_dates_aux today (fuel + 1) s
          = (s, min (s + 60) today) :: generate_dates_aux today fuel (min (s + 60) today + 1) := by
        simp [generate_dates_aux, hst]
      have hs' : today + 1 - (min (s + 60) today + 1) ≤ fuel := by omega
      obtain ⟨ih1, ih2, ih3⟩ := ih (min (s + 60) today + 1) hs'
      refine ⟨?_, ?_, ?_⟩
      · intro w hw
        rw [hred] at hw
        rcases List.mem_cons.mp hw with he | hmem
        · subst he
          refine ⟨Nat.le_refl s, by omega, by omega, by omega⟩
        · have h1 := ih1 w hmem
          exact ⟨by omega, h1.2⟩
      · rw [hred]
        refine List.Pairwise.cons ?_ ih2
        intro b hb
        have h1 := (ih1 b hb).1
        show min (s + 60) today < b.1
        omega
      · intro d hd1 hd2
        rw [hred]
        by_cases hdm : d ≤ min (s + 60) today
        · exact ⟨(s, min (s + 60) today), List.mem_cons_self _ _, hd1, hdm⟩
        · obtain ⟨w, hw, hw1, hw2⟩ := ih3 d (by omega) hd2
          exact ⟨w, List.mem_cons_of_mem _ hw, hw1, hw2⟩
    · have hred : generate_dates_aux today (fuel + 1) s = [] := by
        simp [generate_dates_aux, hst]
      refine ⟨?_, ?_, ?_⟩
      · intro w hw
        rw [hred] at hw
        simp at hw
      · rw [hred]
        exact List.Pairwise.nil
      · intro d hd1 hd2
        exfalso
        omega

theorem foldl_append_eq_flatMap {α β : Type} (g : α → List β) :
    ∀ (l : List α) (init : List β),
      l.foldl (fun acc x => acc ++ g x) init = init ++ l.flatMap g := by
  intro l
  induction l with
  | nil => intro init; simp
  | cons a l ih =>
    intro init
    simp only [List.foldl_cons, List.flatMap_cons]
    rw [ih]
    simp [List.append_assoc]

theorem accum_inner (ys : List String) :
    ∀ (pre : String) (acc : List String),
      (ys.foldl (fun (st : String × List String) y => (st.1 ++ y, st.2 ++ [st.1 ++ y])) (pre, acc)).2
        = acc ++ (List.range ys.length).map (fun k => pre ++ concatStrings (ys.take (k + 1))) := by
  induction ys with
  | nil => intro pre acc; simp
  | cons y ys ih =>
    intro pre acc
    show (ys.foldl _ (pre ++ y, acc ++ [pre ++ y])).2 = _
    rw [ih (pre ++ y) (acc ++ [pre ++ y])]
    simp only [List.length_cons, List.range_succ_eq_map, List.map_cons, List.map_map]
    simp only [List.take, concatStrings, String.append_empty, List.append_assoc,
      List.cons_append, List.nil_append]
    congr 1
    congr 1
    apply List.map_congr_left
    intro k hk
    simp only [Function.comp_apply, String.append_assoc]

theorem find?_key_orderedInsert {V : Type} (t : Nat) (a : Nat × V) (l : List (Nat × V)) :
    ((List.orderedInsert rowLE a l).find? fun x => x.1 == t)
      = if a.1 == t then some a else l.find? fun x => x.1 == t := by
  rw [List.orderedInsert_eq_take_drop, List.find?_append]
  by_cases ha : a.1 = t
  · have htake : ((l.takeWhile fun b => decide ¬ rowLE a b).find? fun x => x.1 == t) = none := by
      rw [List.find?_eq_none]
      intro x hx
      have hpred := List.mem_takeWhile_imp hx
      have hlt : x.1 < a.1 := by
        simp only [decide_not, Bool.not_eq_true', decide_eq_false_iff_not, rowLE,
          Nat.not_le] at hpred
        exact of_decide_eq_true hpred
      simp only [beq_iff_eq]
      omega
    rw [htake]
    simp [List.find?_cons, ha]
  · have hfa : ((a.1 == t) : Bool) = false := by simp [ha]
    have hcons : (((a :: l.dropWhile fun b => decide ¬ rowLE a b)).find? fun x => x.1 == t)
        = ((l.dropWhile fun b => decide ¬ rowLE a b).find? fun x => x.1 == t) := by
      rw [List.find?_cons_of_neg]
      simp [hfa]
    rw [hcons, ← List.find?_append, List.takeWhile_append_dropWhile]
    simp [hfa]

theorem find?_key_sort_values {V : Type} (t : Nat) (l : List (Nat × V)) :
    ((sort_values l).find? fun x => x.1 == t) = l.find? fun x => x.1 == t := by
  induction l with
  | nil => rfl
  | cons a l ih =>
    show ((List.orderedInsert rowLE a (List.insertionSort rowLE l)).find? fun x => x.1 == t) = _
    rw [find?_key_orderedInsert]
    have ih' : ((List.insertionSort rowLE l).find? fun x => x.1 == t)
        = l.find? fun x => x.1 == t := ih
    cases ha : (a.1 == t) with
    | true => simp [List.find?_cons, ha]
    | false => simp [List.find?_cons, ha, ih']

theorem drop_duplicatesAux_find? {V : Type} (t : Nat) :
    ∀ (l : List (Nat × V)) (seen : List Nat), t ∉ seen →
      ((drop_duplicatesAux seen l).find? fun x => x.1 == t) = l.find? fun x => x.1 == t := by
  intro l
  induction l with
  | nil => intro seen hs; rfl
  | cons r rs ih =>
    intro seen hs
    by_cases hr : r.1 ∈ seen
    · have hne : (r.1 == t) = false := by
        simp only [beq_eq_false_iff_ne, ne_eq]
        intro he
        exact hs (he ▸ hr)
      rw [drop_duplicatesAux, if_pos hr, ih seen hs, List.find?_cons_of_neg]
      simp [hne]
    · rw [drop_duplicatesAux, if_neg hr]
      cases hrt : (r.1 == t) with
      | true =>
        rw [List.find?_cons_of_pos, List.find?_cons_of_pos]
        · simp [hrt]
        · simp [hrt]
      | false =>
        rw [List.find?_cons_of_neg, List.find?_cons_of_neg]
        · refine ih (r.1 :: seen) ?_
          intro hmem
          rcases List.mem_cons.mp hmem with he | hseen
          · simp [he] at hrt
          · exact hs hseen
        · simp [hrt]
        · simp [hrt]

theorem drop_duplicatesAux_sublist {V : Type} :
    ∀ (l : List (Nat × V)) (seen : List Nat), List.Sublist (drop_duplicatesAux seen l) l := by
  intro l
  induction l with
  | nil => intro seen; exact List.Sublist.refl _
  | cons r rs ih =>
    intro seen
    by_cases hr : r.1 ∈ seen
    · rw [drop_duplicatesAux, if_pos hr]
      exact List.Sublist.cons r (ih seen)
    · rw [drop_duplicatesAux, if_neg hr]
      exact List.Sublist.cons₂ r (ih (r.1 :: seen))

theorem drop_duplicatesAux_keys {V : Type} :
    ∀ (l : List (Nat × V)) (seen : List Nat),
      ((drop_duplicatesAux seen l).map Prod.fst).Nodup
      ∧ ∀ k ∈ (drop_duplicatesAux seen l).map Prod.fst, k ∉ seen := by
  intro l
  induction l with
  | nil => intro seen; exact ⟨List.nodup_nil, by simp [drop_duplicatesAux]⟩
  | cons r rs ih =>
    intro seen
    by_cases hr : r.1 ∈ seen
    · rw [drop_duplicatesAux, if_pos hr]
      exact ih seen
    · rw [drop_duplicatesAux, if_neg hr]
      obtain ⟨hnd, hni⟩ := ih (r.1 :: seen)
      refine ⟨?_, ?_⟩
      · simp only [List.map_cons]
        refine List.Nodup.cons ?_ hnd
        intro hmem
        exact (hni r.1 hmem) (List.mem_cons_self _ _)
      · intro k hk
        simp only [List.map_cons] at hk
        rcases List.mem_cons.mp hk with he | hmem
        · exact he ▸ hr
        · intro hkseen
          exact (hni k hmem) (List.mem_cons_of_mem _ hkseen)

theorem mem_keys_iff_find?_isSome {V : Type} (l : List (Nat × V)) (t : Nat) :
    t ∈ l.map Prod.fst ↔ ((l.find? fun x => x.1 == t).isSome = true) := by
  rw [List.find?_isSome]
  simp [List.mem_map, beq_iff_eq]

theorem merge_klines_find? {V : Type} (files : List (List (Nat × V))) (t : Nat) :
    ((merge_klines files).find? fun x => x.1 == t)
      = files.flatten.find? fun x => x.1 == t := by
  show ((drop_duplicatesAux [] (sort_values files.flatten)).find? fun x => x.1 == t) = _
  rw [drop_duplicatesAux_find? t _ [] (by simp), find?_key_sort_values]

/-! Claim theorems. -/

/-- Claim C1, amended: `_download` performs exactly one network request on
every call — there is no skip-if-present check, so an already existing
decompressed output does not suppress the request, and a second identical run
repeats one request per URL rather than zero. -/
theorem c1_always_downloads :
    ∀ (gunzip : Bytes → Option Bytes) (net : String → Bytes) (dest dt : String) (fs : FS)
      (url : String), (_download gunzip net dest dt fs url).2.1 = 1 := by
  intro gunzip net dest dt fs url
  cases h : gunzip (net url) <;> simp [_download, h]

/-- Claim C1, counterexample to the claim as stated: a filesystem that already
holds the canonical decompressed output of the URL, on which `_download`
nevertheless performs one network request instead of zero. -/
theorem c1_skip_counterexample :
    fsGet [("d/bybit_data/t/S/f.csv", ([1, 2, 3] : Bytes))]
        (download_filepaths "d" "trading" "https://h/t/S/f.csv.gz").2 = some [1, 2, 3]
  ∧ (_download (fun _ => some [1, 2, 3]) (fun _ => [9]) "d" "trading"
        [("d/bybit_data/t/S/f.csv", ([1, 2, 3] : Bytes))] "https://h/t/S/f.csv.gz").2.1 = 1 := by
  decide

/-- Claim C2: the constructor accepts the unsupported data type `"bogus"`
without raising, although `"bogus"` is not in `_DATA_TYPE` — the validation
the claim (and the repository's own unit test) describes is absent from
`__init__`. -/
theorem c2_init_accepts_invalid :
    BybitBulkDownloader_init "test" "bogus" "linear" = Except.ok ⟨"test", "bogus", "linear"⟩
  ∧ "bogus" ∉ _DATA_TYPE :=
  ⟨rfl, by decide⟩

/-- Claim C3, amended: the walk emits `root ++ entry ++ filename` where for
ordinary data types the entries are exactly the first-level links, while for
`kline_for_metatrader4` the k-th entry under a symbol is the symbol followed
by the concatenation of the FIRST k year links (the year segments accumulate),
not a single symbol/year pair per year link. -/
theorem c3_walk_characterization (data_type base : String) (rootLinks : List String)
    (yearLinks fileLinks : String → List String) :
    get_url_from_bybit data_type base rootLinks yearLinks fileLinks
      = (if data_type = "kline_for_metatrader4" then
            rootLinks.flatMap (fun sym => (List.range (yearLinks sym).length).map
              (fun k => sym ++ concatStrings ((yearLinks sym).take (k + 1))))
          else rootLinks).flatMap
          (fun entry => (fileLinks entry).map
            (fun f => base ++ "/" ++ data_type ++ "/" ++ entry ++ f)) := by
  unfold get_url_from_bybit
  by_cases hdt : data_type = "kline_for_metatrader4"
  · simp only [hdt, if_pos]
    rw [foldl_append_eq_flatMap]
    simp only [accum_inner, List.nil_append]
    rw [foldl_append_eq_flatMap]
    simp [List.flatMap_def, List.map_map]
  · simp only [if_neg hdt]
    rw [foldl_append_eq_flatMap]
    simp

/-- Claim C3, counterexample to the claim as stated: one symbol with two year
links produces the entries `BTCUSDT/2022/` and `BTCUSDT/2022/2023/` — the
second URL contains two year segments — rather than one URL per symbol/year
pair. -/
theorem c3_year_accumulation_counterexample :
    get_url_from_bybit "kline_for_metatrader4" "https://public.bybit.com" ["BTCUSDT/"]
        (fun _ => ["2022/", "2023/"]) (fun _ => ["f.csv.gz"])
      = ["https://public.bybit.com/kline_for_metatrader4/BTCUSDT/2022/f.csv.gz",
         "https://public.bybit.com/kline_for_metatrader4/BTCUSDT/2022/2023/f.csv.gz"]
  ∧ get_url_from_bybit "kline_for_metatrader4" "https://public.bybit.com" ["BTCUSDT/"]
        (fun _ => ["2022/", "2023/"]) (fun _ => ["f.csv.gz"])
      ≠ ["https://public.bybit.com/kline_for_metatrader4/BTCUSDT/2022/f.csv.gz",
         "https://public.bybit.com/kline_for_metatrader4/BTCUSDT/2023/f.csv.gz"] := by
  decide

/-- Claim C4, amended: the merged kline output has pairwise distinct
`startTime` keys, is sorted ascending on `startTime`, keeps exactly the key
set of the pooled input, and for every key the surviving row is the FIRST
pooled row with that key (`drop_duplicates` keeps the first occurrence after
the stable ascending sort), not the last-processed one. -/
theorem c4_merge_first_wins {V : Type} (files : List (List (Nat × V))) (t : Nat) :
    ((merge_klines files).map Prod.fst).Nodup
  ∧ ((merge_klines files).map Prod.fst).Pairwise (· ≤ ·)
  ∧ (∀ s, s ∈ (merge_klines files).map Prod.fst ↔ s ∈ files.flatten.map Prod.fst)
  ∧ ((merge_klines files).find? fun x => x.1 == t) = files.flatten.find? fun x => x.1 == t := by
  refine ⟨?_, ?_, ?_, merge_klines_find? files t⟩
  · exact (drop_duplicatesAux_keys (sort_values files.flatten) []).1
  · have hs : (List.insertionSort rowLE files.flatten).Pairwise rowLE :=
      List.sorted_insertionSort rowLE files.flatten
    have hsub : List.Sublist (merge_klines files) (sort_values files.flatten) :=
      drop_duplicatesAux_sublist (sort_values files.flatten) []
    have hp : (merge_klines files).Pairwise rowLE := List.Pairwise.sublist hsub hs
    exact List.pairwise_map.mpr hp
  · intro s
    rw [mem_keys_iff_find?_isSome, mem_keys_iff_find?_isSome, merge_klines_find? files s]

/-- Claim C4, counterexample to the claim as stated: two pooled row sets
sharing the timestamp 2 merge to the FIRST-processed value `"b"`, not the
later-processed `"c"` the last-write-wins claim predicts. -/
theorem c4_last_wins_counterexample :
    merge_klines [[(1, "a"), (2, "b")], [(2, "c"), (3, "d")]] = [(1, "a"), (2, "b"), (3, "d")]
  ∧ merge_klines [[(1, "a"), (2, "b")], [(2, "c"), (3, "d")]] ≠ [(1, "a"), (2, "c"), (3, "d")] := by
  decide

/-- Claim C5, amended: the funding-rate rows pooled across all windows are
sorted ascending by their parsed numeric timestamp before being written, but
they are NOT deduplicated — the sorted output is a permutation of the whole
pool, so several rows can share one `fundingRateTimestamp`. -/
theorem c5_sorted_not_deduplicated (ws : List (List FundingRow))
    (parsed : List (Nat × String × String))
    (h : ws.flatten.mapM parse_funding_row = some parsed) :
    download_fundingrate_rows ws = some (sort_values parsed)
  ∧ ((sort_values parsed).map Prod.fst).Pairwise (· ≤ ·)
  ∧ (sort_values parsed).Perm parsed := by
  refine ⟨?_, ?_, ?_⟩
  · unfold download_fundingrate_rows
    rw [h]
    rfl
  · have hs : (List.insertionSort rowLE parsed).Pairwise rowLE :=
      List.sorted_insertionSort rowLE parsed
    exact List.pairwise_map.mpr hs
  · exact List.perm_insertionSort rowLE parsed

/-- Claim C5, witness for `c5_sorted_not_deduplicated` at a concrete
two-window input. -/
theorem c5_sorted_witness :
    ([[⟨"0.01", "2000", "B"⟩], [⟨"0.02", "1000", "B"⟩]] :
        List (List FundingRow)).flatten.mapM parse_funding_row
      = some [(2000000000, "0.01", "B"), (1000000000, "0.02", "B")]
  ∧ (download_fundingrate_rows [[⟨"0.01", "2000", "B"⟩], [⟨"0.02", "1000", "B"⟩]]
        = some (sort_values [(2000000000, "0.01", "B"), (1000000000, "0.02", "B")])
    ∧ ((sort_values [(2000000000, "0.01", "B"), (1000000000, "0.02", "B")]).map
          Prod.fst).Pairwise (· ≤ ·)
    ∧ (sort_values [(2000000000, "0.01", "B"), (1000000000, "0.02", "B")]).Perm
        [(2000000000, "0.01", "B"), (1000000000, "0.02", "B")]) :=
  ⟨by decide, c5_sorted_not_deduplicated [[⟨"0.01", "2000", "B"⟩], [⟨"0.02", "1000", "B"⟩]]
    [(2000000000, "0.01", "B"), (1000000000, "0.02", "B")] (by decide)⟩

/-- Claim C5, counterexample to the claim as stated: two windows returning the
same timestamp 1000 yield a persisted row list with that timestamp twice — no
deduplication happens. -/
theorem c5_no_dedup_counterexample :
    download_fundingrate_rows [[⟨"0.01", "1000", "B"⟩], [⟨"0.02", "1000", "B"⟩]]
      = some [(1000000000, "0.01", "B"), (1000000000, "0.02", "B")]
  ∧ ¬ (([(1000000000, "0.01", "B"), (1000000000, "0.02", "B")] :
        List (Nat × String × String)).map Prod.fst).Nodup := by
  decide

/-- Claim C6, amended: for a start day not after today the generated windows
are ordered with a strict gap between the end of one and the start of the
next, each spans at most 60 days and stays within the overall range, and read
as CLOSED intervals `[start, end]` they cover every day from the start day to
today; the half-open `[start, end)` reading of the claim fails at each
window's end day. -/
theorem c6_windows (s t : Nat) (h : s ≤ t) :
    (∀ w ∈ generate_dates_until_today s t, s ≤ w.1 ∧ w.1 ≤ w.2 ∧ w.2 - w.1 ≤ 60 ∧ w.2 ≤ t)
  ∧ (generate_dates_until_today s t).Pairwise (fun a b => a.2 < b.1)
  ∧ (∀ d, s ≤ d → d ≤ t → ∃ w ∈ generate_dates_until_today s t, w.1 ≤ d ∧ d ≤ w.2) :=
  generate_dates_aux_props t (t + 1 - s) s (Nat.le_refl _)

/-- Claim C6, witness for `c6_windows` at start day 0 and today 70. -/
theorem c6_windows_witness :
    0 ≤ 70
  ∧ ((∀ w ∈ generate_dates_until_today 0 70, 0 ≤ w.1 ∧ w.1 ≤ w.2 ∧ w.2 - w.1 ≤ 60 ∧ w.2 ≤ 70)
    ∧ (generate_dates_until_today 0 70).Pairwise (fun a b => a.2 < b.1)
    ∧ (∀ d, 0 ≤ d → d ≤ 70 → ∃ w ∈ generate_dates_until_today 0 70, w.1 ≤ d ∧ d ≤ w.2)) :=
  ⟨by decide, c6_windows 0 70 (by decide)⟩

/-- Claim C6, counterexample to the claim as stated: with start day 0 and
today 70 the windows are `(0, 60)` and `(61, 70)`; day 60 lies in the
requested span but in neither half-open window `[0, 60)` nor `[61, 70)`, so
the `[start, end)` windows do not cover the span. -/
theorem c6_gap_counterexample :
    generate_dates_until_today 0 70 = [(0, 60), (61, 70)]
  ∧ ¬ (0 ≤ 60 ∧ 60 < 60)
  ∧ ¬ (61 ≤ 60 ∧ 60 < 70)
  ∧ 0 ≤ 60 ∧ 60 ≤ 70 := by
  decide

/-- Claim C7, amended: when decompression of a fetched `.gz` archive fails,
`_download` reports the failure but deletes nothing — the fully written
compressed intermediate stays on disk with the downloaded body, and the
created-but-unfilled decompressed output stays as well, because the source
has no error handler around the gzip block. -/
theorem c7_failure_leaves_files (gunzip : Bytes → Option Bytes) (net : String → Bytes)
    (dest dt : String) (fs : FS) (url : String)
    (h1 : gunzip (net url) = none)
    (h2 : ['.', 'g', 'z'] <:+ (download_filepaths dest dt url).1.data) :
    (_download gunzip net dest dt fs url).2.2 = true
  ∧ fsGet (_download gunzip net dest dt fs url).1 (download_filepaths dest dt url).1
      = some (net url)
  ∧ fsGet (_download gunzip net dest dt fs url).1 (download_filepaths dest dt url).2
      = some [] := by
  have hcd : (download_filepaths dest dt url).2 ≠ (download_filepaths dest dt url).1 :=
    pyReplaceGz_ne_of_suffix _ h2
  refine ⟨?_, ?_, ?_⟩
  · simp [_download, h1]
  · simp only [_download, h1]
    rw [fsGet_fsSet_ne _ _ _ _ (fun hh => hcd hh.symm), fsGet_fsSet_self]
  · simp only [_download, h1]
    exact fsGet_fsSet_self _ _ _

/-- Claim C7, witness for `c7_failure_leaves_files` at a concrete corrupt
payload. -/
theorem c7_failure_witness :
    ((fun _ => (none : Option Bytes)) ((fun _ => ([9] : Bytes)) "https://h/t/S/f.csv.gz") = none)
  ∧ (['.', 'g', 'z'] <:+ (download_filepaths "d" "trading" "https://h/t/S/f.csv.gz").1.data)
  ∧ ((_download (fun _ => none) (fun _ => [9]) "d" "trading" [] "https://h/t/S/f.csv.gz").2.2 = true
    ∧ fsGet (_download (fun _ => none) (fun _ => [9]) "d" "trading" [] "https://h/t/S/f.csv.gz").1
        (download_filepaths "d" "trading" "https://h/t/S/f.csv.gz").1
        = some ((fun _ => ([9] : Bytes)) "https://h/t/S/f.csv.gz")
    ∧ fsGet (_download (fun _ => none) (fun _ => [9]) "d" "trading" [] "https://h/t/S/f.csv.gz").1
        (download_filepaths "d" "trading" "https://h/t/S/f.csv.gz").2 = some []) :=
  ⟨by decide, by decide,
    c7_failure_leaves_files (fun _ => none) (fun _ => [9]) "d" "trading" [] "https://h/t/S/f.csv.gz"
      (by decide) (by decide)⟩

/-- Claim C7, counterexample to the claim as stated: after a decompression
failure the compressed intermediate is still on disk with the downloaded
body, contradicting that it is deleted before the error propagates. -/
theorem c7_cleanup_counterexample :
    (_download (fun _ => none) (fun _ => [9]) "d" "trading" [] "https://h/t/S/f.csv.gz").2.2 = true
  ∧ fsGet (_download (fun _ => none) (fun _ => [9]) "d" "trading" [] "https://h/t/S/f.csv.gz").1
      (download_filepaths "d" "trading" "https://h/t/S/f.csv.gz").1 = some [9] := by
  decide

/-- Claim C8: a successful fetch of a `.gz` URL reports no failure, leaves at
the canonical decompressed path exactly the gunzip of the response body, and
leaves no compressed intermediate behind. -/
theorem c8_roundtrip (gunzip : Bytes → Option Bytes) (net : String → Bytes)
    (dest dt : String) (fs : FS) (url : String) (out : Bytes)
    (h1 : gunzip (net url) = some out)
    (h2 : ['.', 'g', 'z'] <:+ (download_filepaths dest dt url).1.data) :
    (_download gunzip net dest dt fs url).2.2 = false
  ∧ fsGet (_download gunzip net dest dt fs url).1 (download_filepaths dest dt url).2 = some out
  ∧ fsGet (_download gunzip net dest dt fs url).1 (download_filepaths dest dt url).1 = none := by
  have hcd : (download_filepaths dest dt url).2 ≠ (download_filepaths dest dt url).1 :=
    pyReplaceGz_ne_of_suffix _ h2
  refine ⟨?_, ?_, ?_⟩
  · simp [_download, h1]
  · simp only [_download, h1]
    rw [fsGet_fsErase_ne _ _ _ hcd, fsGet_fsSet_self]
  · simp only [_download, h1]
    exact fsGet_fsErase_self _ _

/-- Claim C8, witness for `c8_roundtrip` at a concrete gzip payload. -/
theorem c8_roundtrip_witness :
    ((fun b => if b == [7] then some [1, 2] else none)
        ((fun _ => ([7] : Bytes)) "https://h/t/S/f.csv.gz") = some [1, 2])
  ∧ (['.', 'g', 'z'] <:+ (download_filepaths "d" "trading" "https://h/t/S/f.csv.gz").1.data)
  ∧ ((_download (fun b => if b == [7] then some [1, 2] else none) (fun _ => [7]) "d" "trading" []
        "https://h/t/S/f.csv.gz").2.2 = false
    ∧ fsGet (_download (fun b => if b == [7] then some [1, 2] else none) (fun _ => [7]) "d"
          "trading" [] "https://h/t/S/f.csv.gz").1
        (download_filepaths "d" "trading" "https://h/t/S/f.csv.gz").2 = some [1, 2]
    ∧ fsGet (_download (fun b => if b == [7] then some [1, 2] else none) (fun _ => [7]) "d"
          "trading" [] "https://h/t/S/f.csv.gz").1
        (download_filepaths "d" "trading" "https://h/t/S/f.csv.gz").1 = none) :=
  ⟨by decide, by decide,
    c8_roundtrip (fun b => if b == [7] then some [1, 2] else none) (fun _ => [7]) "d" "trading" []
      "https://h/t/S/f.csv.gz" [1, 2] (by decide) (by decide)⟩

/-- Claim C9: `make_chunks` with positive `n` splits a list into consecutive
chunks whose concatenation is the original list, every chunk but the last has
length exactly `n`, and the last chunk has length `len mod n`, or `n` when
`n` divides `len`. -/
theorem c9_make_chunks {α : Type} (lst : List α) (n : Nat) (h : 0 < n) :
    (make_chunks lst n).flatten = lst
  ∧ (∀ c ∈ (make_chunks lst n).dropLast, c.length = n)
  ∧ (lst ≠ [] → ∃ c, (make_chunks lst n).getLast? = some c
      ∧ c.length = (if lst.length % n = 0 then n else lst.length % n)) := by
  have hn0 : ¬ n = 0 := by omega
  rw [make_chunks, if_neg hn0]
  exact ⟨make_chunksAux_flatten n h lst.length lst (Nat.le_refl _),
    make_chunksAux_dropLast n h lst.length lst (Nat.le_refl _),
    fun hne => make_chunksAux_getLast n h lst.length lst (Nat.le_refl _) hne⟩

/-- Claim C9, witness for `c9_make_chunks` on a five-element list with chunk
size two. -/
theorem c9_make_chunks_witness :
    0 < 2
  ∧ ((make_chunks [1, 2, 3, 4, 5] 2).flatten = [1, 2, 3, 4, 5]
    ∧ (∀ c ∈ (make_chunks [1, 2, 3, 4, 5] 2).dropLast, c.length = 2)
    ∧ ([1, 2, 3, 4, 5] ≠ ([] : List Nat) → ∃ c, (make_chunks [1, 2, 3, 4, 5] 2).getLast? = some c
        ∧ c.length = (if ([1, 2, 3, 4, 5] : List Nat).length % 2 = 0 then 2
            else ([1, 2, 3, 4, 5] : List Nat).length % 2))) :=
  ⟨by decide, c9_make_chunks [1, 2, 3, 4, 5] 2 (by decide)⟩

/-- Claim C10: the local path pair is computed by a pure function of the URL,
destination and data type whose decompressed component removes EVERY
occurrence of `.gz` from the compressed path — demonstrated on a URL with
`.gz` in the middle of its segments, where the result differs from stripping
only the trailing extension. -/
theorem c10_path_resolution :
    (∀ dest dt url, (download_filepaths dest dt url).2 = pyReplaceGz (download_filepaths dest dt url).1)
  ∧ download_filepaths "dest" "trading" "https://public.bybit.com/trading/SYM.gz.A/data.gz.csv.gz"
      = ("dest/bybit_data/trading/SYM.gz.A/data.gz.csv.gz", "dest/bybit_data/trading/SYM.A/data.csv")
  ∧ pyReplaceGz "dest/bybit_data/trading/SYM.gz.A/data.gz.csv.gz"
      ≠ stripTrailingGz "dest/bybit_data/trading/SYM.gz.A/data.gz.csv.gz" :=
  ⟨fun _ _ _ => rfl, by decide, by decide⟩
